import Mathlib

/-!
Verification of the occurrence-search and concordance-extraction engine of
`Analysis/software/filter.py` (SwissSpatialPlanningTextometricAnalysis).

The Python script scans three parallel corpus sequences (`all_lemmas`,
`all_pos`, `all_tokens`) against reference word lists.  Single-word
expressions are counted exactly with a frequency table; multi-word
expressions are counted with a window-based membership rule; each match
emits a keyword-in-context (KWIC) line.  The definitions below are a
shallow embedding of that script, translated line by line; `spec`-prefixed
definitions restate the natural-language specification for comparison.
-/

namespace Textometric

/-- Python slice `L[s:e]` for natural-number bounds (start clipped below by
`max 0`, handled by truncated subtraction; end clipped above by `take`). -/
def sliceList (L : List String) (s e : Nat) : List String :=
  (L.drop s).take (e - s)

/-- Source line 18: `WINDOW_MULTI = 3`, the multi-word window radius `W`. -/
def WINDOW_MULTI : Nat := 3

/-- Source line 19: `KWIC_WINDOW = 20`, the concordance context radius `K`. -/
def KWIC_WINDOW : Nat := 20

/-- Python `" " in w` (source lines 140-141): the single/multi dispatch
predicate, membership of the space character in the string. -/
def hasSpace (w : String) : Bool := ' ' ∈ w.data

/-- Python `str.split()` with no argument (source line 166): split on runs
of whitespace, discarding empty pieces.  `cur` is the reversed accumulator
of the current word. -/
def splitWsAux : List Char → List Char → List String
  | cur, [] => if cur.isEmpty then [] else [ String.mk cur.reverse ]
  | cur, c :: rest =>
    if c.isWhitespace then
      if cur.isEmpty then splitWsAux [] rest
      else String.mk cur.reverse :: splitWsAux [] rest
    else splitWsAux (c :: cur) rest

/-- Python `expr.split()` (source line 166). -/
def pySplit (s : String) : List String := splitWsAux [] s.data

/-- Python `line.strip()` (source line 129): drop whitespace from both ends. -/
def pyStrip (s : String) : String :=
  String.mk (((s.data.dropWhile Char.isWhitespace).reverse.dropWhile Char.isWhitespace).reverse)

/-- Source lines 128-129: `words = [line.strip() for line in f if line.strip()]`
— reference-list ingestion keeps the stripped form of every non-blank line. -/
def parseRefList (ls : List String) : List String :=
  (ls.filter (fun line => !(pyStrip line).isEmpty)).map pyStrip

/-- Source lines 169-171: `window = all_lemmas[max(0, i - WINDOW_MULTI) :
min(len(all_lemmas), i + WINDOW_MULTI + 1)]`, for a general radius `W`. -/
def window (L : List String) (W i : Nat) : List String :=
  sliceList L (i - W) (min L.length (i + W + 1))

/-- Source line 173: `all(tok in window for tok in tokens_expr)`. -/
def matchAt (L : List String) (W : Nat) (tokensExpr : List String) (i : Nat) : Bool :=
  tokensExpr.all (fun tok => decide (tok ∈ window L W i))

/-- The anchor positions at which the multi-word loop (source lines 168-174)
fires: every `i` in `range(len(all_lemmas))` whose window contains all words. -/
def matchPositions (L : List String) (W : Nat) (tokensExpr : List String) : List Nat :=
  (List.range L.length).filter (matchAt L W tokensExpr)

/-- Source lines 167-174: the multi-word occurrence count, one increment per
anchor position whose window contains every expression word. -/
def multiWordCount (L : List String) (W : Nat) (tokensExpr : List String) : Nat :=
  (List.range L.length).countP (matchAt L W tokensExpr)

/-- Source lines 143 and 147: `lemma_counter = Counter(all_lemmas)` and the
lookup `lemma_counter[word]` — the number of occurrences of `w` in `L`. -/
def lemma_counter (L : List String) (w : String) : Nat := L.count w

/-- The positions at which the single-word KWIC loop (source lines 151-152)
fires: every `i` with `all_lemmas[i] == word`. -/
def singleMatchPositions (L : List String) (w : String) : List Nat :=
  (List.range L.length).filter (fun i => decide (L.get? i = some w))

/-- A row of `results_kwic` (source lines 156-162 and 180-186). -/
structure KwicLine where
  lemmaStr : String
  before : String
  hit : String
  after : String
  list : String
deriving DecidableEq

/-- Source lines 153-162: the single-word KWIC line at match position `i`
(`before = " ".join(all_tokens[max(0, i-K):i])`, `hit = all_tokens[i]`,
`after = " ".join(all_tokens[i+1:i+1+K])`). -/
def singleKwicLine (tokens : List String) (K : Nat) (listName w : String) (i : Nat) : KwicLine :=
  { lemmaStr := w
    before := String.intercalate " " (sliceList tokens (i - K) i)
    hit := tokens.getD i ""
    after := String.intercalate " " (sliceList tokens (i + 1) (i + 1 + K))
    list := listName }

/-- Source lines 151-162: all KWIC lines emitted for a single-word
expression, in ascending corpus order. -/
def singleKwicLines (lemmas tokens : List String) (K : Nat) (listName w : String) : List KwicLine :=
  (singleMatchPositions lemmas w).map (singleKwicLine tokens K listName w)

/-- Source lines 177-186: the multi-word KWIC line at anchor `i` for an
expression of `k` words (`before = " ".join(all_tokens[max(0, i-K):i])`,
`hit = " ".join(all_tokens[i:i+k])`,
`after = " ".join(all_tokens[i+k:i+k+K])`). -/
def multiKwicLine (tokens : List String) (K : Nat) (listName expr : String) (k i : Nat) : KwicLine :=
  { lemmaStr := expr
    before := String.intercalate " " (sliceList tokens (i - K) i)
    hit := String.intercalate " " (sliceList tokens i (i + k))
    after := String.intercalate " " (sliceList tokens (i + k) (i + k + K))
    list := listName }

/-- Source lines 165-186: all KWIC lines emitted for a multi-word
expression (one per matching anchor, in ascending anchor order). -/
def multiKwicLines (lemmas tokens : List String) (K W : Nat) (listName expr : String)
    (tokensExpr : List String) : List KwicLine :=
  (matchPositions lemmas W tokensExpr).map (multiKwicLine tokens K listName expr tokensExpr.length)

/-- A row of `results_counts` (source lines 148 and 187). -/
structure CountRecord where
  list : String
  lemmaStr : String
  count : Nat
deriving DecidableEq

/-- Source lines 139-187, count side: for one reference list, the count
records appended to `results_counts` — all single-word records (lines
146-148, in list order) followed by all multi-word records (lines 165-187,
in list order). -/
def countsForList (lemmas : List String) (W : Nat) (listName : String)
    (words : List String) : List CountRecord :=
  ((words.filter (fun w => !hasSpace w)).map
    (fun w => { list := listName, lemmaStr := w, count := lemma_counter lemmas w }))
  ++ ((words.filter hasSpace).map
    (fun expr => { list := listName, lemmaStr := expr,
                   count := multiWordCount lemmas W (pySplit expr) }))

/-- Source lines 139-187, KWIC side: for one reference list, the KWIC rows
appended to `results_kwic` — all single-word rows first, then all
multi-word rows, each expression's rows in ascending corpus order. -/
def kwicForList (lemmas tokens : List String) (K W : Nat) (listName : String)
    (words : List String) : List KwicLine :=
  ((words.filter (fun w => !hasSpace w)).flatMap
    (fun w => singleKwicLines lemmas tokens K listName w))
  ++ ((words.filter hasSpace).flatMap
    (fun expr => multiKwicLines lemmas tokens K W listName expr (pySplit expr)))

/-- Source lines 118-119: `meaningful_pos` filtering —
`[lemma for lemma, pos in zip(all_lemmas, all_pos) if pos in meaningful_pos]`. -/
def filtered_lemmas_with_pos (lemmas pos : List String) (meaningful : List String) : List String :=
  ((lemmas.zip pos).filter (fun lp => decide (lp.2 ∈ meaningful))).map Prod.fst

/-- Run configuration: window radius `W`, context radius `K`, and the
"meaningful" POS allow-set of source line 118. -/
structure RunConfig where
  W : Nat
  K : Nat
  meaningfulPos : List String

/-- The observable outputs of the script: the descriptive-statistics lemma
view (line 119) and the two exported tables (lines 136-187). -/
structure RunOutput where
  filteredLemmas : List String
  counts : List CountRecord
  kwic : List KwicLine

/-- Source lines 118-187 as one function of the corpus, the reference
lists (in supplied order) and the configuration. -/
def runPipeline (lemmas pos tokens : List String) (refLists : List (String × List String))
    (cfg : RunConfig) : RunOutput :=
  { filteredLemmas := filtered_lemmas_with_pos lemmas pos cfg.meaningfulPos
    counts := refLists.flatMap (fun nl => countsForList lemmas cfg.W nl.1 nl.2)
    kwic := refLists.flatMap (fun nl => kwicForList lemmas tokens cfg.K cfg.W nl.1 nl.2) }

/-- Restates the specification, section 4.1: the multi-word match rule at
position `i` — every expression word occurs somewhere in the lemma window
`[max(0, i-W), min(len-1, i+W)]`. -/
def specWindowMatch (L : List String) (W : Nat) (ws : List String) (i : Nat) : Prop :=
  ∀ w ∈ ws, ∃ j : Fin L.length,
    i - W ≤ j.val ∧ j.val ≤ min (L.length - 1) (i + W) ∧ L.get j = w

instance specWindowMatchDecidable (L : List String) (W : Nat) (ws : List String) (i : Nat) :
    Decidable (specWindowMatch L W ws i) := by
  unfold specWindowMatch
  exact inferInstance

/-- Restates the specification, section 4.1: the multi-word count is the
number of positions satisfying the window rule. -/
def specMultiCount (L : List String) (W : Nat) (ws : List String) : Nat :=
  (List.range L.length).countP (fun i => decide (specWindowMatch L W ws i))

/-- Restates the specification, section 8: the direct positional count of a
single word — the number of indices `i` with `L[i] == w`. -/
def positionalCount (L : List String) (w : String) : Nat :=
  (List.range L.length).countP (fun i => decide (L.get? i = some w))

/-- Restates the specification, section 4.2: the corpus tokens at indices
`s, s+1, ..., min(e, len) - 1` — the clipped index range `[s, e)`. -/
def specSegment (tokens : List String) (s e : Nat) : List String :=
  (List.range (min e tokens.length - s)).map (fun t => tokens.getD (s + t) "")

/-! ## Helper lemmas -/

theorem length_sliceList (L : List String) (s e : Nat) :
    (sliceList L s e).length = min (e - s) (L.length - s) := by
  simp [sliceList, List.length_take, List.length_drop, Nat.min_def]

theorem get_sliceList (L : List String) (s e j : Nat) (h : j < (sliceList L s e).length)
    (hL : s + j < L.length) : (sliceList L s e).get ⟨j, h⟩ = L.get ⟨s + j, hL⟩ := by
  simp [sliceList, List.get_eq_getElem, List.getElem_take, List.getElem_drop]

theorem mem_sliceList (L : List String) (s e : Nat) (x : String) :
    x ∈ sliceList L s e ↔
      ∃ j : Fin L.length, s ≤ j.val ∧ j.val < e ∧ L.get j = x := by
  constructor
  · intro hx
    obtain ⟨⟨j, hj⟩, hget⟩ := List.mem_iff_get.mp hx
    have hlen := hj
    rw [length_sliceList] at hlen
    have hL : s + j < L.length := by omega
    refine ⟨⟨s + j, hL⟩, ?_, ?_, ?_⟩
    · show s ≤ s + j
      omega
    · show s + j < e
      omega
    · rw [← get_sliceList L s e j hj hL]
      exact hget
  · rintro ⟨j, hsj, hje, hget⟩
    have hjL := j.isLt
    have hlt : j.val - s < (sliceList L s e).length := by
      rw [length_sliceList]; omega
    have hL : s + (j.val - s) < L.length := by omega
    apply List.mem_iff_get.mpr
    refine ⟨⟨j.val - s, hlt⟩, ?_⟩
    rw [get_sliceList L s e (j.val - s) hlt hL]
    have hfin : (⟨s + (j.val - s), hL⟩ : Fin L.length) = j := by
      apply Fin.ext
      show s + (j.val - s) = j.val
      omega
    rw [hfin]
    exact hget

theorem mem_window (L : List String) (W i : Nat) (x : String) :
    x ∈ window L W i ↔
      ∃ j : Fin L.length, i - W ≤ j.val ∧ j.val ≤ i + W ∧ L.get j = x := by
  rw [window, mem_sliceList]
  constructor
  · rintro ⟨j, h1, h2, h3⟩
    refine ⟨j, h1, ?_, h3⟩
    have hjL := j.isLt
    omega
  · rintro ⟨j, h1, h2, h3⟩
    refine ⟨j, h1, ?_, h3⟩
    have hjL := j.isLt
    omega

theorem matchAt_iff (L : List String) (W : Nat) (ws : List String) (i : Nat) :
    matchAt L W ws i = true ↔
      ∀ w ∈ ws, ∃ j : Fin L.length, i - W ≤ j.val ∧ j.val ≤ i + W ∧ L.get j = w := by
  rw [matchAt, List.all_eq_true]
  constructor
  · intro h w hw
    exact (mem_window L W i w).mp (of_decide_eq_true (h w hw))
  · intro h w hw
    exact decide_eq_true ((mem_window L W i w).mpr (h w hw))

theorem matchAt_iff_specWindowMatch (L : List String) (W : Nat) (ws : List String) (i : Nat) :
    matchAt L W ws i = true ↔ specWindowMatch L W ws i := by
  rw [matchAt_iff, specWindowMatch]
  constructor
  · intro h w hw
    obtain ⟨j, h1, h2, h3⟩ := h w hw
    refine ⟨j, h1, ?_, h3⟩
    have := j.isLt
    omega
  · intro h w hw
    obtain ⟨j, h1, h2, h3⟩ := h w hw
    exact ⟨j, h1, by omega, h3⟩

theorem sliceList_eq_specSegment (L : List String) (s e : Nat) :
    sliceList L s e = specSegment L s e := by
  apply List.ext_getElem
  · simp [length_sliceList, specSegment]
    omega
  · intro n h1 h2
    have hlen := h1
    rw [length_sliceList] at hlen
    have hL : s + n < L.length := by omega
    have hget := get_sliceList L s e n h1 hL
    simp only [List.get_eq_getElem] at hget
    rw [hget]
    simp [specSegment, List.getElem?_eq_getElem hL]

theorem count_eq_positionalCount (L : List String) (w : String) :
    L.count w = positionalCount L w := by
  induction L with
  | nil => simp [positionalCount]
  | cons a tl ih =>
    have htl : List.countP ((fun i => decide ((a :: tl).get? i = some w)) ∘ Nat.succ)
        (List.range tl.length) = positionalCount tl w := by
      apply List.countP_congr
      intro x _
      simp [Function.comp, List.get?_cons_succ]
    rw [positionalCount, List.length_cons, List.range_succ_eq_map, List.countP_cons,
      List.countP_map, htl, List.count_cons, ih]
    by_cases h : a = w <;> simp [h]

theorem matchAt_zero_iff (L : List String) (ws : List String) (i : Nat) (h : i < L.length) :
    matchAt L 0 ws i = true ↔ ∀ w ∈ ws, L.get ⟨i, h⟩ = w := by
  rw [matchAt_iff]
  constructor
  · intro hall w hw
    obtain ⟨j, h1, h2, h3⟩ := hall w hw
    have hji : (⟨i, h⟩ : Fin L.length) = j := by
      apply Fin.ext
      show i = j.val
      omega
    rw [hji]
    exact h3
  · intro hall w hw
    refine ⟨⟨i, h⟩, ?_, ?_, hall w hw⟩
    · show i - 0 ≤ i
      omega
    · show i ≤ i + 0
      omega

theorem intercalate_space_nil : String.intercalate " " ([] : List String) = "" := rfl

theorem sliceList_infix (L : List String) (s e : Nat) : sliceList L s e <:+: L := by
  refine ⟨L.take s, (L.drop s).drop (e - s), ?_⟩
  rw [List.append_assoc]
  unfold sliceList
  rw [List.take_append_drop, List.take_append_drop]

theorem splitWsAux_ne_nil_of_cur (cs : List Char) :
    ∀ cur : List Char, cur ≠ [] → splitWsAux cur cs ≠ [] := by
  induction cs with
  | nil =>
    intro cur h
    cases cur with
    | nil => exact absurd rfl h
    | cons c t => simp [splitWsAux]
  | cons c rest ih =>
    intro cur h
    simp only [splitWsAux]
    by_cases hw : c.isWhitespace
    · cases cur with
      | nil => exact absurd rfl h
      | cons d t => simp [hw]
    · simp only [hw, if_false]
      exact ih (c :: cur) (by simp)

theorem splitWsAux_ne_nil_of_mem (cs : List Char) :
    ∀ cur : List Char, (∃ c ∈ cs, c.isWhitespace = false) → splitWsAux cur cs ≠ [] := by
  induction cs with
  | nil =>
    rintro cur ⟨c, hc, _⟩
    cases hc
  | cons c rest ih =>
    rintro cur ⟨d, hd, hdw⟩
    simp only [splitWsAux]
    by_cases hw : c.isWhitespace
    · have hdr : d ∈ rest := by
        rcases List.mem_cons.mp hd with rfl | hmem
        · rw [hdw] at hw
          cases hw
        · exact hmem
      simp only [hw, if_true]
      by_cases hce : cur.isEmpty
      · simp only [hce, if_true]
        exact ih [] ⟨d, hdr, hdw⟩
      · simp [hce]
    · simp only [hw, if_false]
      exact splitWsAux_ne_nil_of_cur rest (c :: cur) (by simp)

theorem pySplit_of_strip_ne_nil (l : List Char)
    (h : ((l.dropWhile Char.isWhitespace).reverse.dropWhile Char.isWhitespace).reverse ≠ []) :
    splitWsAux [] ((l.dropWhile Char.isWhitespace).reverse.dropWhile Char.isWhitespace).reverse
      ≠ [] := by
  have htne : (l.dropWhile Char.isWhitespace).reverse.dropWhile Char.isWhitespace ≠ [] := by
    intro hnil
    apply h
    rw [hnil]
    rfl
  have hhead := List.head_dropWhile_not Char.isWhitespace
    (l.dropWhile Char.isWhitespace).reverse htne
  apply splitWsAux_ne_nil_of_mem
  refine ⟨_, ?_, hhead⟩
  rw [List.mem_reverse]
  exact List.head_mem htne

/-! ## Claim theorems -/

/-- Claim C1: for every corpus lemma sequence, window radius `W ≥ 0` and
expression splitting into words `w_1..w_k` (`k ≥ 1`), the multi-word count
equals the number of positions `i` whose clipped lemma window
`[max(0, i-W), min(len-1, i+W)]` contains every expression word (order
irrelevant, membership test); in particular for corpus `[a, b, c]` and
expression `"a c"` the count is 1 with `W = 1` and 3 with `W = 2`. -/
theorem c1_multi_word_occurrence_rule :
    (∀ (L : List String) (W : Nat) (ws : List String), ws ≠ [] →
      multiWordCount L W ws = specMultiCount L W ws)
    ∧ pySplit "a c" = [ "a", "c" ]
    ∧ multiWordCount [ "a", "b", "c" ] 1 (pySplit "a c") = 1
    ∧ multiWordCount [ "a", "b", "c" ] 2 (pySplit "a c") = 3 := by
  refine ⟨?_, by decide, by decide, by decide⟩
  intro L W ws _
  unfold multiWordCount specMultiCount
  apply List.countP_congr
  intro i _
  constructor
  · intro h
    exact decide_eq_true ((matchAt_iff_specWindowMatch L W ws i).mp h)
  · intro h
    exact (matchAt_iff_specWindowMatch L W ws i).mpr (of_decide_eq_true h)

theorem c1_multi_word_occurrence_rule_witness :
    multiWordCount [ "a", "b", "c" ] 1 [ "a", "c" ]
      = specMultiCount [ "a", "b", "c" ] 1 [ "a", "c" ] :=
  c1_multi_word_occurrence_rule.1 [ "a", "b", "c" ] 1 [ "a", "c" ] (by decide)

/-- Claim C2: for every lemma sequence `L` and single word `w`, the
frequency-table lookup `lemma_counter[w]` used by the implementation equals
the direct positional count, the number of indices `i` with `L[i] == w`. -/
theorem c2_single_word_exactness :
    ∀ (L : List String) (w : String), lemma_counter L w = positionalCount L w := by
  intro L w
  exact count_eq_positionalCount L w

/-- Claim C4: every multi-word concordance line at anchor `i` for a `k`-word
expression has as hit text the space-joined surface tokens at indices
`[i, i+k)` (clipped to the corpus), as before-context the space-joined
tokens at `[max(0, i-K), i-1]`, and as after-context the space-joined
tokens at `[i+k, i+k+K)` (up to `K` tokens). -/
theorem c4_multi_word_concordance_span :
    ∀ (lemmas tokens : List String) (K W : Nat) (listName expr : String) (ws : List String),
      multiKwicLines lemmas tokens K W listName expr ws =
        (matchPositions lemmas W ws).map (fun i =>
          { lemmaStr := expr
            before := String.intercalate " " (specSegment tokens (i - K) i)
            hit := String.intercalate " " (specSegment tokens i (i + ws.length))
            after := String.intercalate " "
              (specSegment tokens (i + ws.length) (i + ws.length + K))
            list := listName }) := by
  intro lemmas tokens K W listName expr ws
  unfold multiKwicLines
  apply List.map_congr_left
  intro i _
  simp [multiKwicLine, sliceList_eq_specSegment]

/-- Claim C5: a concordance line anchored at position 0 has an empty
before-context, one anchored at the last position has an empty
after-context (for the multi-word builder, for any span `k ≥ 1`), and the
before/after windows only read inside the corpus (each is a contiguous
infix of the surface-token sequence). -/
theorem c5_concordance_boundary_clipping :
    ∀ (tokens : List String) (K : Nat) (listName w expr : String) (k i : Nat),
      (i = 0 → (singleKwicLine tokens K listName w i).before = ""
        ∧ (multiKwicLine tokens K listName expr k i).before = "")
      ∧ (tokens ≠ [] → i = tokens.length - 1 →
          (singleKwicLine tokens K listName w i).after = ""
          ∧ (1 ≤ k → (multiKwicLine tokens K listName expr k i).after = ""))
      ∧ sliceList tokens (i - K) i <:+: tokens
      ∧ sliceList tokens (i + 1) (i + 1 + K) <:+: tokens
      ∧ sliceList tokens (i + k) (i + k + K) <:+: tokens := by
  intro tokens K listName w expr k i
  refine ⟨?_, ?_, sliceList_infix tokens (i - K) i,
    sliceList_infix tokens (i + 1) (i + 1 + K), sliceList_infix tokens (i + k) (i + k + K)⟩
  · intro h0
    subst h0
    constructor <;> simp [singleKwicLine, multiKwicLine, sliceList, String.intercalate]
  · intro hne hlast
    have hlen : 1 ≤ tokens.length := by
      cases tokens with
      | nil => exact absurd rfl hne
      | cons a tl => simp
    constructor
    · have hdrop : tokens.drop (i + 1) = [] := List.drop_eq_nil_of_le (by omega)
      simp [singleKwicLine, sliceList, hdrop, intercalate_space_nil]
    · intro hk
      have hdrop : tokens.drop (i + k) = [] := List.drop_eq_nil_of_le (by omega)
      simp [multiKwicLine, sliceList, hdrop, intercalate_space_nil]

theorem c5_concordance_boundary_clipping_witness :
    (multiKwicLine [ "x" ] 2 "L" "e f" 2 0).after = "" :=
  ((c5_concordance_boundary_clipping [ "x" ] 2 "L" "w" "e f" 2 0).2.1
    (by decide) (by decide)).2 (by decide)

/-- Claim C6: for every corpus, every expression word list and all window
radii `W1 ≤ W2`, the multi-word count with radius `W2` is at least the
count with radius `W1` (wider windows only admit more matches). -/
theorem c6_monotonicity_in_window_radius :
    ∀ (L : List String) (ws : List String) (W1 W2 : Nat), W1 ≤ W2 →
      multiWordCount L W1 ws ≤ multiWordCount L W2 ws := by
  intro L ws W1 W2 hW
  unfold multiWordCount
  apply List.countP_mono_left
  intro i _ h
  rw [matchAt_iff] at h
  rw [matchAt_iff]
  intro x hx
  obtain ⟨j, h1, h2, h3⟩ := h x hx
  refine ⟨j, ?_, ?_, h3⟩
  · omega
  · omega

theorem c6_monotonicity_in_window_radius_witness :
    multiWordCount [ "a", "b", "c" ] 1 [ "a", "c" ]
      ≤ multiWordCount [ "a", "b", "c" ] 2 [ "a", "c" ] :=
  c6_monotonicity_in_window_radius [ "a", "b", "c" ] [ "a", "c" ] 1 2 (by decide)

/-- Claim C7 counterexample: the two-word expression `"a a"` (both words
equal) has count 1, not 0, on the one-lemma corpus `[a]` with `W = 0`, so a
nonzero `W = 0` count is not restricted to one-word expressions. -/
theorem c7_w0_degeneracy_counterexample :
    pySplit "a a" = [ "a", "a" ]
    ∧ 2 ≤ (pySplit "a a").length
    ∧ multiWordCount [ "a" ] 0 (pySplit "a a") = 1 := by
  refine ⟨by decide, by decide, by decide⟩

/-- Claim C7 (amended): with `W = 0` the multi-word rule requires every
expression word to equal the lemma at the anchor position itself, so the
count is 0 for every expression containing two distinct words; a nonzero
count is possible only when all the expression's words are identical
(which includes `k ≥ 2` repeated-word expressions, not only `k = 1`). -/
theorem c7_w0_degeneracy :
    (∀ (L : List String) (ws : List String) (i : Nat) (h : i < L.length),
      matchAt L 0 ws i = true ↔ ∀ w ∈ ws, L.get ⟨i, h⟩ = w)
    ∧ (∀ (L : List String) (ws : List String) (w1 w2 : String),
        w1 ∈ ws → w2 ∈ ws → w1 ≠ w2 → multiWordCount L 0 ws = 0) := by
  refine ⟨matchAt_zero_iff, ?_⟩
  intro L ws w1 w2 h1 h2 hne
  unfold multiWordCount
  apply List.countP_eq_zero.mpr
  intro i hi hmatch
  have hiL : i < L.length := List.mem_range.mp hi
  have hall := (matchAt_zero_iff L ws i hiL).mp hmatch
  exact hne ((hall w1 h1).symm.trans (hall w2 h2))

theorem c7_w0_degeneracy_witness :
    multiWordCount [ "a", "b" ] 0 [ "a", "b" ] = 0 :=
  c7_w0_degeneracy.2 [ "a", "b" ] [ "a", "b" ] "a" "b" (by decide) (by decide) (by decide)

/-- Claim C8: two runs differing only in the "meaningful" POS allow-set
produce identical counts and concordance tables; the POS filter only
affects the descriptive-statistics view. -/
theorem c8_pos_filter_noninterference :
    ∀ (lemmas pos tokens : List String) (refLists : List (String × List String))
      (W K : Nat) (m1 m2 : List String),
      (runPipeline lemmas pos tokens refLists { W := W, K := K, meaningfulPos := m1 }).counts
        = (runPipeline lemmas pos tokens refLists { W := W, K := K, meaningfulPos := m2 }).counts
      ∧ (runPipeline lemmas pos tokens refLists { W := W, K := K, meaningfulPos := m1 }).kwic
        = (runPipeline lemmas pos tokens refLists { W := W, K := K, meaningfulPos := m2 }).kwic := by
  intro lemmas pos tokens refLists W K m1 m2
  exact ⟨rfl, rfl⟩

/-- Claim C10: for every corpus and expression, the number of emitted
concordance lines equals the recorded count — for single-word expressions
the KWIC-loop line count equals the frequency-table count, and for
multi-word expressions one line is emitted per counted anchor. -/
theorem c10_count_kwic_consistency :
    ∀ (lemmas tokens : List String) (K W : Nat) (listName w expr : String) (ws : List String),
      (singleKwicLines lemmas tokens K listName w).length = lemma_counter lemmas w
      ∧ (multiKwicLines lemmas tokens K W listName expr ws).length = multiWordCount lemmas W ws := by
  intro lemmas tokens K W listName w expr ws
  constructor
  · rw [singleKwicLines, List.length_map, singleMatchPositions,
      ← List.countP_eq_length_filter, lemma_counter, count_eq_positionalCount, positionalCount]
  · rw [multiKwicLines, List.length_map, matchPositions,
      ← List.countP_eq_length_filter, multiWordCount]

/-- Claim C3 counterexample: the whitespace-only expression `" "` splits to
zero words, yet the multi-word counting loop does not skip it — the vacuous
`all` matches it at every corpus position: on the one-lemma corpus `[a]`
its count is 1 (not 0) and one concordance line is emitted. -/
theorem c3_empty_expression_counterexample :
    pySplit " " = []
    ∧ multiWordCount [ "a" ] WINDOW_MULTI (pySplit " ") = 1
    ∧ (multiKwicLines [ "a" ] [ "a" ] KWIC_WINDOW WINDOW_MULTI "L" " " (pySplit " ")).length
        = 1 := by
  refine ⟨by decide, by decide, by decide⟩

/-- Claim C3 (amended): an expression whose whitespace split yields zero
words is not skipped by the counting loop — it vacuously matches at every
corpus position (count = corpus length, one concordance line per
position); in the actual pipeline this cannot occur because reference-list
ingestion strips each line and drops blank ones, so every ingested
expression still splits to at least one word. -/
theorem c3_empty_expression_behavior :
    (∀ (L : List String) (W : Nat), multiWordCount L W [] = L.length)
    ∧ (∀ (L tokens : List String) (K W : Nat) (listName expr : String),
        (multiKwicLines L tokens K W listName expr []).length = L.length)
    ∧ (∀ (ls : List String) (w : String), w ∈ parseRefList ls → pySplit w ≠ []) := by
  have hmatch : ∀ (L : List String) (W i : Nat), matchAt L W [] i = true := by
    intro L W i
    rfl
  have hcount : ∀ (L : List String) (W : Nat), multiWordCount L W [] = L.length := by
    intro L W
    unfold multiWordCount
    calc (List.range L.length).countP (matchAt L W [])
        = (List.range L.length).countP (fun i => true) := by
          apply List.countP_congr
          intro i _
          simp [hmatch]
      _ = L.length := by simp
  refine ⟨hcount, ?_, ?_⟩
  · intro L tokens K W listName expr
    rw [multiKwicLines, List.length_map, matchPositions, ← List.countP_eq_length_filter]
    exact hcount L W
  · intro ls w hw
    unfold parseRefList at hw
    obtain ⟨line, hline, rfl⟩ := List.mem_map.mp hw
    have hfilter := List.of_mem_filter hline
    have hemp : (pyStrip line).isEmpty = false := by
      simpa using hfilter
    have hcs : ((line.data.dropWhile Char.isWhitespace).reverse.dropWhile
        Char.isWhitespace).reverse ≠ [] := by
      intro hnil
      have htrue : (pyStrip line).isEmpty = true := by
        unfold pyStrip
        rw [hnil]
        rfl
      rw [htrue] at hemp
      cases hemp
    show splitWsAux []
      ((line.data.dropWhile Char.isWhitespace).reverse.dropWhile Char.isWhitespace).reverse ≠ []
    exact pySplit_of_strip_ne_nil line.data hcs

theorem c3_empty_expression_behavior_witness :
    pySplit "a" ≠ [] :=
  c3_empty_expression_behavior.2.2 [ " a " ] "a" (by decide)

theorem mem_countsForList_list (lemmas : List String) (W : Nat) (n : String)
    (ws : List String) (r : CountRecord) (h : r ∈ countsForList lemmas W n ws) :
    r.list = n := by
  unfold countsForList at h
  rcases List.mem_append.mp h with h | h <;>
  · obtain ⟨w, _, rfl⟩ := List.mem_map.mp h
    rfl

theorem countP_filter_not_add (p q : String → Bool) (ws : List String) :
    List.countP q (ws.filter (fun w => !p w)) + List.countP q (ws.filter p)
      = List.countP q ws := by
  induction ws with
  | nil => rfl
  | cons a tl ih =>
    by_cases hp : p a <;> by_cases hq : q a <;>
      simp [List.filter_cons, List.countP_cons, hp, hq] <;> omega

theorem countP_countsForList_key (lemmas : List String) (W : Nat) (n : String)
    (ws : List String) (expr : String) :
    (countsForList lemmas W n ws).countP (fun r => decide (r.list = n ∧ r.lemmaStr = expr))
      = ws.count expr := by
  unfold countsForList
  rw [List.countP_append, List.countP_map, List.countP_map]
  have hs : List.countP ((fun r : CountRecord => decide (r.list = n ∧ r.lemmaStr = expr)) ∘
      (fun w => ({ list := n, lemmaStr := w, count := lemma_counter lemmas w } : CountRecord)))
      (ws.filter (fun w => !hasSpace w))
      = List.countP (fun w => decide (w = expr)) (ws.filter (fun w => !hasSpace w)) := by
    apply List.countP_congr
    intro x _
    simp [Function.comp]
  have hm : List.countP ((fun r : CountRecord => decide (r.list = n ∧ r.lemmaStr = expr)) ∘
      (fun e => ({ list := n, lemmaStr := e,
                   count := multiWordCount lemmas W (pySplit e) } : CountRecord)))
      (ws.filter hasSpace)
      = List.countP (fun w => decide (w = expr)) (ws.filter hasSpace) := by
    apply List.countP_congr
    intro x _
    simp [Function.comp]
  rw [hs, hm, countP_filter_not_add hasSpace (fun w => decide (w = expr)) ws,
    List.count_eq_countP]
  apply List.countP_congr
  intro x _
  simp

theorem countP_countsForList_key_ne (lemmas : List String) (W : Nat) (n2 n : String)
    (ws : List String) (expr : String) (h : n2 ≠ n) :
    (countsForList lemmas W n2 ws).countP (fun r => decide (r.list = n ∧ r.lemmaStr = expr))
      = 0 := by
  apply List.countP_eq_zero.mpr
  intro r hr
  have hl := mem_countsForList_list lemmas W n2 ws r hr
  simp [hl, h]

theorem countP_counts_flatMap_key (lemmas : List String) (W : Nat)
    (refLists : List (String × List String)) :
    (refLists.map Prod.fst).Nodup → (∀ nl ∈ refLists, (Prod.snd nl).Nodup) →
    ∀ nl ∈ refLists, ∀ expr ∈ nl.2,
      (refLists.flatMap (fun x => countsForList lemmas W x.1 x.2)).countP
        (fun r => decide (r.list = nl.1 ∧ r.lemmaStr = expr)) = 1 := by
  induction refLists with
  | nil =>
    intro _ _ nl hnl
    cases hnl
  | cons hd rest ih =>
    intro hNames hWords nl hnl expr hexpr
    rw [List.map_cons, List.nodup_cons] at hNames
    obtain ⟨hhdnot, hrestnodup⟩ := hNames
    rw [List.flatMap_cons, List.countP_append]
    rcases List.mem_cons.mp hnl with rfl | hmem
    · have h1 : (countsForList lemmas W nl.1 nl.2).countP
          (fun r => decide (r.list = nl.1 ∧ r.lemmaStr = expr)) = 1 := by
        rw [countP_countsForList_key]
        exact List.count_eq_one_of_mem (hWords nl (List.mem_cons_self nl rest)) hexpr
      have h2 : (rest.flatMap (fun x => countsForList lemmas W x.1 x.2)).countP
          (fun r => decide (r.list = nl.1 ∧ r.lemmaStr = expr)) = 0 := by
        apply List.countP_eq_zero.mpr
        intro r hr
        obtain ⟨nl2, hnl2, hrmem⟩ := List.mem_flatMap.mp hr
        have hl := mem_countsForList_list lemmas W nl2.1 nl2.2 r hrmem
        have hne : nl2.1 ≠ nl.1 := by
          intro heq
          apply hhdnot
          rw [← heq]
          exact List.mem_map.mpr ⟨nl2, hnl2, rfl⟩
        simp [hl, hne]
      omega
    · have h1 : (countsForList lemmas W hd.1 hd.2).countP
          (fun r => decide (r.list = nl.1 ∧ r.lemmaStr = expr)) = 0 := by
        apply countP_countsForList_key_ne
        intro heq
        apply hhdnot
        rw [heq]
        exact List.mem_map.mpr ⟨nl, hmem, rfl⟩
      have h2 := ih hrestnodup (fun nl2 h2 => hWords nl2 (List.mem_cons_of_mem hd h2))
        nl hmem expr hexpr
      omega

theorem counts_map_key (lemmas : List String) (W : Nat)
    (refLists : List (String × List String)) :
    (refLists.flatMap (fun nl => countsForList lemmas W nl.1 nl.2)).map
        (fun r => (r.list, r.lemmaStr))
      = refLists.flatMap (fun nl =>
          ((nl.2.filter (fun w => !hasSpace w)) ++ nl.2.filter hasSpace).map
            (fun w => (nl.1, w))) := by
  induction refLists with
  | nil => rfl
  | cons hd rest ih =>
    rw [List.flatMap_cons, List.flatMap_cons, List.map_append, ih]
    congr 1
    unfold countsForList
    rw [List.map_append, List.map_append, List.map_map, List.map_map]
    rfl

/-- Claim C9 counterexample: a reference list containing the same
expression twice (here list `L` = `["a", "a"]`) produces two count records
for the pair `(L, a)`, so the exported counts table does not have exactly
one record per (list, expression) pair. -/
theorem c9_aggregator_uniqueness_counterexample :
    ((runPipeline [ "a" ] [ "NOM" ] [ "a" ] [ ( "L", [ "a", "a" ] ) ]
        { W := WINDOW_MULTI, K := KWIC_WINDOW, meaningfulPos := [ "NOM" ] }).counts).countP
      (fun r => decide (r.list = "L" ∧ r.lemmaStr = "a")) = 2 := by
  decide

/-- Claim C9 (amended): provided the reference-list names are pairwise
distinct (guaranteed by the implementation's dict keying) and each list's
expressions are duplicate-free, the exported counts table has exactly one
record per (list, expression) pair; unconditionally, the table's
(list, expression) key sequence is exactly the lists in supplied order
with, inside each list, all single-word expressions before all multi-word
expressions; and each expression's concordance lines are generated at
strictly ascending corpus positions. -/
theorem c9_aggregator_uniqueness_ordering :
    (∀ (lemmas pos tokens : List String) (refLists : List (String × List String))
        (cfg : RunConfig),
      (refLists.map Prod.fst).Nodup → (∀ nl ∈ refLists, (Prod.snd nl).Nodup) →
      ∀ nl ∈ refLists, ∀ expr ∈ nl.2,
        ((runPipeline lemmas pos tokens refLists cfg).counts).countP
          (fun r => decide (r.list = nl.1 ∧ r.lemmaStr = expr)) = 1)
    ∧ (∀ (lemmas pos tokens : List String) (refLists : List (String × List String))
        (cfg : RunConfig),
        ((runPipeline lemmas pos tokens refLists cfg).counts).map
            (fun r => (r.list, r.lemmaStr))
          = refLists.flatMap (fun nl =>
              ((nl.2.filter (fun w => !hasSpace w)) ++ nl.2.filter hasSpace).map
                (fun w => (nl.1, w))))
    ∧ (∀ (lemmas : List String) (W : Nat) (ws : List String) (w : String),
        List.Pairwise (fun a b => a < b) (matchPositions lemmas W ws)
        ∧ List.Pairwise (fun a b => a < b) (singleMatchPositions lemmas w)) := by
  refine ⟨?_, ?_, ?_⟩
  · intro lemmas pos tokens refLists cfg hNames hWords nl hnl expr hexpr
    exact countP_counts_flatMap_key lemmas cfg.W refLists hNames hWords nl hnl expr hexpr
  · intro lemmas pos tokens refLists cfg
    exact counts_map_key lemmas cfg.W refLists
  · intro lemmas W ws w
    constructor
    · exact List.Pairwise.sublist (List.filter_sublist _) (List.pairwise_lt_range _)
    · exact List.Pairwise.sublist (List.filter_sublist _) (List.pairwise_lt_range _)

theorem c9_aggregator_uniqueness_ordering_witness :
    ((runPipeline [ "a" ] [ "NOM" ] [ "a" ] [ ( "L", [ "a" ] ) ]
        { W := WINDOW_MULTI, K := KWIC_WINDOW, meaningfulPos := [ "NOM" ] }).counts).countP
      (fun r => decide (r.list = "L" ∧ r.lemmaStr = "a")) = 1 :=
  c9_aggregator_uniqueness_ordering.1 [ "a" ] [ "NOM" ] [ "a" ] [ ( "L", [ "a" ] ) ]
    { W := WINDOW_MULTI, K := KWIC_WINDOW, meaningfulPos := [ "NOM" ] }
    (by decide) (by decide) ( "L", [ "a" ] ) (by decide) "a" (by decide)

end Textometric
